import Mathlib

/-!
Shallow embedding of the CCCCPPPS firmware core
(src/firmware/ch32-supply/RingBuffer.c and src/firmware/ch32-supply/boost.c).

Bytes are modelled as `Nat` values, the backing store as a `List Nat`,
`size_t` cursors as `Nat`.  Null pointers are modelled with `Option` /
`Bool` flags in the `_c` wrappers that mirror the argument-validation
logic of the C entry points; the unwrapped functions model the body that
runs after validation.  The mutex hooks (`RingLock`/`RingUnlock`) have no
effect on the buffer state and are omitted.
-/

namespace CCCCPPPS

/-- Status codes of RingBuffer.h; `error` is `eRING_BUFFER_STATUS_ERROR`,
the code returned when a search finds nothing. -/
inductive RingBufferStatus_e where
  | success
  | invalidParam
  | overflow
  | error
  | unknown
deriving Repr, DecidableEq

/-- State of `RingBuffer_t`: backing array `data` of capacity `size`,
write cursor `head`, read cursor `tail`. -/
structure RingBuffer_t where
  data : List Nat
  size : Nat
  head : Nat
  tail : Nat
deriving Repr, DecidableEq

/-- Occupancy count, from the static `Peek` in RingBuffer.c: 0 when
`head == tail`, `head - tail` when `head >= tail`, else
`size - (tail - head)`. -/
def Peek (ring : RingBuffer_t) : Nat :=
  if ring.head = ring.tail then 0
  else if ring.head ≥ ring.tail then ring.head - ring.tail
  else ring.size - (ring.tail - ring.head)

/-- Write loop of `RingBuffer_Put`: store each byte at `head`, increment
`head`, wrap to 0 when it reaches `size`. -/
def putBytes (ring : RingBuffer_t) : List Nat → RingBuffer_t
  | [] => ring
  | b :: rest =>
      let h := ring.head + 1
      putBytes { ring with
                  data := ring.data.set ring.head b
                  head := if h = ring.size then 0 else h } rest

/-- Body of `RingBuffer_Put` (after the null checks, which live in
`RingBuffer_Put_c`): reject a zero-length write as `invalidParam`
(the `!size` check), report `overflow` without writing when the length
exceeds `size - Peek`, otherwise run the write loop. -/
def RingBuffer_Put (ring : RingBuffer_t) (data : List Nat) :
    RingBuffer_t × RingBufferStatus_e :=
  if data.length = 0 then (ring, .invalidParam)
  else
    let free := ring.size - Peek ring
    if data.length > free then (ring, .overflow)
    else (putBytes ring data, .success)

/-- Read loop of `RingBuffer_Get`: read a byte at `tail`, increment
`tail`, wrap to 0 when it reaches `size`; returns the final state and the
bytes read in order. -/
def getBytes (ring : RingBuffer_t) : Nat → RingBuffer_t × List Nat
  | 0 => (ring, [])
  | n + 1 =>
      let b := ring.data.getD ring.tail 0
      let t := ring.tail + 1
      let step := getBytes { ring with tail := if t = ring.size then 0 else t } n
      (step.1, b :: step.2)

/-- Body of `RingBuffer_Get` (after null checks): reads
`min(size, available)` bytes, reports that count (`*bytesRead`) and
always returns `success` once the parameters passed validation. -/
def RingBuffer_Get (ring : RingBuffer_t) (size : Nat) :
    RingBuffer_t × List Nat × Nat × RingBufferStatus_e :=
  if size = 0 then (ring, [], 0, .invalidParam)
  else
    let available := Peek ring
    let bytesToRead := if size < available then size else available
    let step := getBytes ring bytesToRead
    (step.1, step.2, bytesToRead, .success)

/-- Scan loop of `RingBuffer_IndexOf`: starting at `pos` with logical
offset `count`, step forward (wrapping at `size`) until `pos == head`
(no match, the C status stays `eRING_BUFFER_STATUS_ERROR`) or the byte at
`pos` equals `value`.  The C `while` loop has no fuel; under the cursor
invariants `head < size` and `tail < size` it terminates within `size`
iterations, so the fuel below is never exhausted (proved in the loop
lemma). -/
def indexOfLoop (ring : RingBuffer_t) (value : Nat) :
    Nat → Nat → Nat → Option Nat
  | 0, _, _ => none
  | fuel + 1, pos, count =>
      if pos = ring.head then none
      else if ring.data.getD pos 0 = value then some count
      else
        let p := pos + 1
        indexOfLoop ring value fuel (if p = ring.size then 0 else p) (count + 1)

/-- Body of `RingBuffer_IndexOf` (after null checks): scan from `tail`. -/
def RingBuffer_IndexOf (ring : RingBuffer_t) (value : Nat) :
    Option Nat × RingBufferStatus_e :=
  match indexOfLoop ring value ring.size ring.tail 0 with
  | some c => (some c, .success)
  | none => (none, .error)

/-- Inner match loop of `RingBuffer_Find`: with `matchedValues = m` and
`fuel` iterations left (`fuel = valueSize - m` at the call site), compare
the byte at physical position `(pos + m) % size` with `value[m]`, stopping
at the first mismatch; returns the final `matchedValues`. -/
def findInnerLoop (ring : RingBuffer_t) (value : List Nat) (pos : Nat) :
    Nat → Nat → Nat
  | 0, m => m
  | fuel + 1, m =>
      if ring.data.getD ((pos + m) % ring.size) 0 = value.getD m 0
      then findInnerLoop ring value pos fuel (m + 1)
      else m

/-- Outer scan loop of `RingBuffer_Find`: like `indexOfLoop` but a hit
requires `data[pos] == value[0]` and the inner loop (started at
`matchedValues = 1`) to reach `valueSize`. -/
def findLoop (ring : RingBuffer_t) (value : List Nat) :
    Nat → Nat → Nat → Option Nat
  | 0, _, _ => none
  | fuel + 1, pos, count =>
      if pos = ring.head then none
      else if ring.data.getD pos 0 = value.getD 0 0 ∧
              findInnerLoop ring value pos (value.length - 1) 1 = value.length
      then some count
      else
        let p := pos + 1
        findLoop ring value fuel (if p = ring.size then 0 else p) (count + 1)

/-- Body of `RingBuffer_Find` (after null checks): scan from `tail`. -/
def RingBuffer_Find (ring : RingBuffer_t) (value : List Nat) :
    Option Nat × RingBufferStatus_e :=
  match findLoop ring value ring.size ring.tail 0 with
  | some c => (some c, .success)
  | none => (none, .error)

/-- C entry point `RingBuffer_Init`: `if (ring && data && size)` set the
fields, else `invalidParam`.  The caller-supplied storage is the list
`storage` (its length is the `size` argument); a null `ring` or `data`
pointer is modelled by the Bool flags. -/
def RingBuffer_Init_c (ringIsNull dataIsNull : Bool) (storage : List Nat) :
    Option RingBuffer_t × RingBufferStatus_e :=
  if ringIsNull = true ∨ dataIsNull = true ∨ storage.length = 0 then
    (none, .invalidParam)
  else
    (some { data := storage, size := storage.length, head := 0, tail := 0 },
     .success)

/-- C entry point `RingBuffer_Put`: `if (!ring || !data || !size) return
invalidParam` before any mutation; a null `data` pointer is `none`, a
zero `size` argument an empty list. -/
def RingBuffer_Put_c (ring : Option RingBuffer_t) (data : Option (List Nat)) :
    Option RingBuffer_t × RingBufferStatus_e :=
  match ring, data with
  | some r, some d =>
      if d.length = 0 then (some r, .invalidParam)
      else
        let step := RingBuffer_Put r d
        (some step.1, step.2)
  | r, _ => (r, .invalidParam)

/-- C entry point `RingBuffer_Get`: the guard is
`if (!ring || !data || !size)` — the `bytesRead` out-pointer is NOT
checked for null.  The reported count is `none` when `bytesRead` is null
(in C that path dereferences the null pointer). -/
def RingBuffer_Get_c (ring : Option RingBuffer_t) (dataIsNull : Bool)
    (size : Nat) (bytesReadIsNull : Bool) :
    Option RingBuffer_t × List Nat × Option Nat × RingBufferStatus_e :=
  match ring with
  | none => (none, [], none, .invalidParam)
  | some r =>
      if dataIsNull = true ∨ size = 0 then (some r, [], none, .invalidParam)
      else
        let step := RingBuffer_Get r size
        (some step.1, step.2.1,
         if bytesReadIsNull then none else some step.2.2.1, step.2.2.2)

/-- C entry point `RingBuffer_IndexOf`: guard `if (!ring || !index)`. -/
def RingBuffer_IndexOf_c (ring : Option RingBuffer_t) (value : Nat)
    (indexIsNull : Bool) : Option Nat × RingBufferStatus_e :=
  match ring with
  | none => (none, .invalidParam)
  | some r =>
      if indexIsNull = true then (none, .invalidParam)
      else RingBuffer_IndexOf r value

/-- C entry point `RingBuffer_Find`: guard
`if (!ring || !value || !valueSize || !index)`. -/
def RingBuffer_Find_c (ring : Option RingBuffer_t) (value : Option (List Nat))
    (indexIsNull : Bool) : Option Nat × RingBufferStatus_e :=
  match ring, value with
  | some r, some v =>
      if v.length = 0 ∨ indexIsNull = true then (none, .invalidParam)
      else RingBuffer_Find r v
  | _, _ => (none, .invalidParam)

/-- Physical start position of the byte at logical offset `c`. -/
def startPos (ring : RingBuffer_t) (c : Nat) : Nat :=
  (ring.tail + c) % ring.size

/-- Logical contents of the buffer, oldest to newest: the occupied bytes
read from `tail` forward. -/
def contents (ring : RingBuffer_t) : List Nat :=
  (List.range (Peek ring)).map (fun i => ring.data.getD (startPos ring i) 0)

/-- Multi-byte match predicate actually implemented by `RingBuffer_Find`:
all pattern bytes match at physical positions `(pos + m) % size`,
regardless of whether those positions are occupied. -/
def physMatch (ring : RingBuffer_t) (value : List Nat) (pos : Nat) : Bool :=
  (List.range value.length).all
    (fun m => ring.data.getD ((pos + m) % ring.size) 0 == value.getD m 0)

/-! ## Boost controller (boost.c)

`int` values are modelled as unbounded `Int` (the firmware stays far from
32-bit overflow in reachable states); the `(int)(uint32 - uint32)`
conversions in the error computation are modelled exactly with
`toSigned32`.  The arithmetic right shifts `>> 3` and `>> 6` on `int`
(KD, KI) are floor division by 8 and 64, which is what the target
compiler (gcc, two's complement, arithmetic shift) produces. -/

/-- MIN_DUTY from boost.c. -/
def MIN_DUTY : Int := 0

/-- MAX_DUTY from boost.c. -/
def MAX_DUTY : Int := 250

/-- Proportional gain `KP(eP) = eP >> 0`. -/
def KP (e : Int) : Int := e

/-- Derivative gain `KD(eD) = eD >> 3` (arithmetic shift = floor by 8). -/
def KD (e : Int) : Int := e / 8

/-- Integral gain `KI(eI) = eI >> 6` (arithmetic shift = floor by 64). -/
def KI (e : Int) : Int := e / 64

/-- Reinterpret a mathematical integer as the C `int` obtained from a
`uint32_t` computation: reduce mod 2^32, then pick the signed
representative (implementation-defined conversion, two's complement). -/
def toSigned32 (z : Int) : Int :=
  let w := z % 4294967296
  if w < 2147483648 then w else w - 4294967296

/-- Module state of boost.c: the static variables read and written by the
controller, including the PID statics `lastEP` and `eI` of
`BoostControllerPID`.  `pwmDuty` is `s_pwmDuty` (the committed duty, also
written to `TIM1->CH3CVR`). -/
structure BoostState where
  targetVRaw : Nat
  targetIRaw : Nat
  feedbackVRaw : Nat
  feedbackIRaw : Nat
  vref : Nat
  currentOffset : Int
  pwmDuty : Int
  ccMode : Bool
  lastEP : Int
  eI : Int
deriving Repr, DecidableEq

/-- `BoostControllerPID` from boost.c: zero target disables and resets;
otherwise compute both errors, arbitrate CC/CV on the smaller error, run
the PID update and commit the clamped duty via `SetDuty`. -/
def BoostControllerPID (s : BoostState) : BoostState :=
  if s.targetVRaw = 0 ∨ s.targetIRaw = 0 then
    { s with lastEP := 0, eI := 0, pwmDuty := 0 }
  else
    let ePv := toSigned32 ((s.targetVRaw : Int) - (s.feedbackVRaw : Int))
    let ePi := toSigned32 ((s.targetIRaw : Int) - (s.feedbackIRaw : Int))
    let cc : Bool := if ePv < ePi then false else true
    let eP := min ePv ePi
    let eD := eP - s.lastEP
    let eI2 := s.eI + eP
    let duty := KP eP + KD eD + KI eI2
    let duty := max duty MIN_DUTY
    let duty := min duty MAX_DUTY
    { s with ccMode := cc, lastEP := eP, eI := eI2, pwmDuty := duty }

/-- `ADC1_IRQHandler` from boost.c: latch the freshly sampled triple
(reference, current feedback, voltage feedback) into the static sample
variables, then run one controller tick. -/
def ADC1_IRQHandler (s : BoostState) (feedbackV feedbackI vrefSample : Nat) :
    BoostState :=
  BoostControllerPID
    { s with feedbackVRaw := feedbackV, feedbackIRaw := feedbackI,
             vref := vrefSample }

/-- `GetCurrentMilliamps` from boost.c: subtract the calibration offset
from the raw current sample (as C `int`), report 0 when negative, and
return the value through the `uint16_t` return type (reduction mod
2^16). -/
def GetCurrentMilliamps (s : BoostState) : Nat :=
  let current : Int := (s.feedbackIRaw : Int) - s.currentOffset
  if current < 0 then 0
  else (current % 65536).toNat

/-- Snapshot built by `BoostPWM_GetState`; the `voltage` field (from
`GetVoltageMillivolts`, which only the excluded telemetry path consumes)
is not modelled, the claims concern the `current`, `duty` and `ccMode`
fields. -/
structure BoostState_t where
  current : Nat
  duty : Int
  ccMode : Bool
deriving Repr, DecidableEq

/-- `BoostPWM_GetState` from boost.c, restricted to the modelled
fields. -/
def BoostPWM_GetState (s : BoostState) : BoostState_t :=
  { current := GetCurrentMilliamps s, duty := s.pwmDuty, ccMode := s.ccMode }
end CCCCPPPS

namespace CCCCPPPS

example : (RingBuffer_Put ⟨[0, 0, 0], 3, 0, 0⟩ [7, 8]).2 = .success := by decide

example : RingBuffer_IndexOf ⟨[1, 2, 9, 9], 4, 2, 0⟩ 2 = (some 1, .success) := by decide

example : RingBuffer_IndexOf ⟨[1, 2, 9, 9], 4, 2, 0⟩ 9 = (none, .error) := by decide

example : RingBuffer_Find ⟨[1, 2, 9, 9], 4, 2, 0⟩ [2, 9] = (some 1, .success) := by decide

example : RingBuffer_Find ⟨[2, 9, 9, 1], 4, 1, 3⟩ [1, 2] = (some 0, .success) := by decide

example : RingBuffer_Find ⟨[1, 2, 9, 9], 4, 2, 0⟩ [1, 2, 9] = (some 0, .success) := by decide

/-! ## Helper lemmas on modular cursor arithmetic and lists -/

theorem addMod {n : Nat} (a b : Nat) (ha : a < n) (hb : b ≤ n) :
    (a + b) % n = if a + b < n then a + b else a + b - n := by
  split
  · exact Nat.mod_eq_of_lt (by assumption)
  · rw [Nat.mod_eq_sub_mod (by omega)]
    exact Nat.mod_eq_of_lt (by omega)

theorem wrapStep (size p : Nat) (h : p < size) :
    (if p + 1 = size then 0 else p + 1) = (p + 1) % size := by
  split
  · rename_i h1
    rw [h1, Nat.mod_self]
  · rw [Nat.mod_eq_of_lt (by omega)]

theorem getD_set_self (l : List Nat) (i x d : Nat) (h : i < l.length) :
    (l.set i x).getD i d = x := by
  simp [List.getD, List.getElem?_set, h]

theorem getD_set_ne (l : List Nat) (i j x d : Nat) (h : i ≠ j) :
    (l.set i x).getD j d = l.getD j d := by
  simp [List.getD, List.getElem?_set, h]

theorem getBytes_length (n : Nat) (ring : RingBuffer_t) :
    ((getBytes ring n).2).length = n := by
  induction n generalizing ring with
  | zero => rfl
  | succ n ih => simp [getBytes, ih]

theorem getBytes_spec (n : Nat) (ring : RingBuffer_t)
    (hs : 0 < ring.size) (ht : ring.tail < ring.size) :
    (getBytes ring n).2 =
      (List.range n).map
        (fun i => ring.data.getD ((ring.tail + i) % ring.size) 0) ∧
    (getBytes ring n).1 = { ring with tail := (ring.tail + n) % ring.size } := by
  induction n generalizing ring with
  | zero =>
      refine ⟨rfl, ?_⟩
      show ring = _
      rw [Nat.add_zero, Nat.mod_eq_of_lt ht]
  | succ n ih =>
      have hw : (if ring.tail + 1 = ring.size then 0 else ring.tail + 1)
          = (ring.tail + 1) % ring.size := wrapStep ring.size ring.tail ht
      have ht2 : (ring.tail + 1) % ring.size < ring.size := Nat.mod_lt _ hs
      have hunf : getBytes ring (n + 1)
          = ((getBytes { ring with tail := (ring.tail + 1) % ring.size } n).1,
             ring.data.getD ring.tail 0 ::
               (getBytes { ring with
                  tail := (ring.tail + 1) % ring.size } n).2) := by
        simp only [getBytes]
        rw [hw]
      obtain ⟨ih1, ih2⟩ :=
        ih { ring with tail := (ring.tail + 1) % ring.size } hs ht2
      rw [hunf]
      constructor
      · show ring.data.getD ring.tail 0 :: _ = _
        rw [ih1, List.range_succ_eq_map, List.map_cons, List.map_map]
        congr 1
        · rw [Nat.add_zero, Nat.mod_eq_of_lt ht]
        · apply List.map_congr_left
          intro i _
          simp only [Function.comp]
          rw [Nat.mod_add_mod]
          congr 2
          omega
      · show (getBytes { ring with
            tail := (ring.tail + 1) % ring.size } n).1 = _
        rw [ih2]
        congr 1
        rw [Nat.mod_add_mod]
        congr 1
        omega

theorem putBytes_fields (S : List Nat) (ring : RingBuffer_t)
    (hs : 0 < ring.size) (hh : ring.head < ring.size) :
    (putBytes ring S).size = ring.size ∧
    (putBytes ring S).tail = ring.tail ∧
    (putBytes ring S).data.length = ring.data.length ∧
    (putBytes ring S).head = (ring.head + S.length) % ring.size := by
  induction S generalizing ring with
  | nil =>
      refine ⟨rfl, rfl, rfl, ?_⟩
      rw [List.length_nil, Nat.add_zero, Nat.mod_eq_of_lt hh]
      rfl
  | cons b T ih =>
      have hw : (if ring.head + 1 = ring.size then 0 else ring.head + 1)
          = (ring.head + 1) % ring.size := wrapStep ring.size ring.head hh
      have hh2 : (ring.head + 1) % ring.size < ring.size := Nat.mod_lt _ hs
      have hunf : putBytes ring (b :: T)
          = putBytes { ring with data := ring.data.set ring.head b,
                                 head := (ring.head + 1) % ring.size } T := by
        simp only [putBytes]
        rw [hw]
      obtain ⟨f1, f2, f3, f4⟩ :=
        ih { ring with data := ring.data.set ring.head b,
                       head := (ring.head + 1) % ring.size } hs hh2
      rw [hunf]
      refine ⟨f1, f2, ?_, ?_⟩
      · rw [f3]
        exact List.length_set ring.data ring.head b
      · rw [f4]
        show ((ring.head + 1) % ring.size + T.length) % ring.size = _
        rw [Nat.mod_add_mod, List.length_cons]
        congr 1
        omega

example :
    (RingBuffer_Get (RingBuffer_Put ⟨[0, 0, 0], 3, 2, 2⟩ [7, 8]).1 2).2.1
      = [7, 8] := by decide

example :
    (RingBuffer_Get (RingBuffer_Put ⟨[0, 0], 2, 0, 0⟩ [7, 8]).1 2).2.1
      = [] := by decide

theorem putBytes_getD_untouched (S : List Nat) (ring : RingBuffer_t)
    (hs : 0 < ring.size) (hh : ring.head < ring.size)
    (hS : S.length ≤ ring.size) :
    ∀ p, p < ring.size →
      (∀ i, i < S.length → (ring.head + i) % ring.size ≠ p) →
      (putBytes ring S).data.getD p 0 = ring.data.getD p 0 := by
  induction S generalizing ring with
  | nil => intro p _ _; rfl
  | cons b T ih =>
      intro p hp hout
      have hw : (if ring.head + 1 = ring.size then 0 else ring.head + 1)
          = (ring.head + 1) % ring.size := wrapStep ring.size ring.head hh
      have hh2 : (ring.head + 1) % ring.size < ring.size := Nat.mod_lt _ hs
      have hunf : putBytes ring (b :: T)
          = putBytes { ring with data := ring.data.set ring.head b,
                                 head := (ring.head + 1) % ring.size } T := by
        simp only [putBytes]
        rw [hw]
      have hhead : ring.head ≠ p := by
        have h0 := hout 0 (by simp)
        rwa [Nat.add_zero, Nat.mod_eq_of_lt hh] at h0
      rw [hunf]
      have hT : ∀ j, j < T.length →
          (((ring.head + 1) % ring.size) + j) % ring.size ≠ p := by
        intro j hj
        rw [Nat.mod_add_mod]
        have := hout (j + 1) (by simp; omega)
        intro hc
        apply this
        rw [← hc]
        congr 1
        omega
      have := ih { ring with data := ring.data.set ring.head b,
                             head := (ring.head + 1) % ring.size }
        hs hh2 (by simp at hS ⊢; omega) p hp hT
      rw [this]
      exact getD_set_ne ring.data ring.head p b 0 hhead

theorem putBytes_getD (S : List Nat) (ring : RingBuffer_t)
    (hs : 0 < ring.size) (hh : ring.head < ring.size)
    (hlen : ring.data.length = ring.size) (hS : S.length ≤ ring.size) :
    ∀ i, i < S.length →
      (putBytes ring S).data.getD ((ring.head + i) % ring.size) 0
        = S.getD i 0 := by
  induction S generalizing ring with
  | nil => intro i hi; simp at hi
  | cons b T ih =>
      intro i hi
      have hw : (if ring.head + 1 = ring.size then 0 else ring.head + 1)
          = (ring.head + 1) % ring.size := wrapStep ring.size ring.head hh
      have hh2 : (ring.head + 1) % ring.size < ring.size := Nat.mod_lt _ hs
      have hunf : putBytes ring (b :: T)
          = putBytes { ring with data := ring.data.set ring.head b,
                                 head := (ring.head + 1) % ring.size } T := by
        simp only [putBytes]
        rw [hw]
      have hTlen : T.length ≤ ring.size := by simp at hS; omega
      rw [hunf]
      match i with
      | 0 =>
          rw [show ring.head + 0 = ring.head from rfl, Nat.mod_eq_of_lt hh]
          have hout : ∀ j, j < T.length →
              (((ring.head + 1) % ring.size) + j) % ring.size ≠ ring.head := by
            intro j hj
            rw [Nat.mod_add_mod]
            have hb : 1 + j ≤ ring.size := by simp at hS; omega
            have hb2 : 1 + j < ring.size := by simp at hS; omega
            have := addMod (n := ring.size) ring.head (1 + j) hh hb
            have harg : ring.head + 1 + j = ring.head + (1 + j) := by omega
            rw [harg, this]
            split <;> omega
          have := putBytes_getD_untouched T
            { ring with data := ring.data.set ring.head b,
                        head := (ring.head + 1) % ring.size }
            hs hh2 hTlen ring.head hh hout
          rw [this]
          show (ring.data.set ring.head b).getD ring.head 0 = b
          exact getD_set_self ring.data ring.head b 0 (by omega)
      | j + 1 =>
          have hj : j < T.length := by simp at hi; omega
          have harg : (ring.head + (j + 1)) % ring.size
              = (((ring.head + 1) % ring.size) + j) % ring.size := by
            rw [Nat.mod_add_mod]
            congr 1
            omega
          rw [harg]
          have := ih { ring with data := ring.data.set ring.head b,
                                 head := (ring.head + 1) % ring.size }
            hs hh2 (by simpa using hlen) hTlen j hj
          rw [this]
          simp [List.getD]

theorem Peek_lt (ring : RingBuffer_t) (hs : 0 < ring.size)
    (hh : ring.head < ring.size) (ht : ring.tail < ring.size) :
    Peek ring < ring.size := by
  simp only [Peek]
  split
  · exact hs
  · split <;> omega

theorem startPos_lt (ring : RingBuffer_t) (hs : 0 < ring.size) (c : Nat) :
    startPos ring c < ring.size := Nat.mod_lt _ hs

theorem startPos_peek (ring : RingBuffer_t) (hs : 0 < ring.size)
    (hh : ring.head < ring.size) (ht : ring.tail < ring.size) :
    startPos ring (Peek ring) = ring.head := by
  simp only [startPos, Peek]
  split
  · rename_i h1
    rw [Nat.add_zero, Nat.mod_eq_of_lt ht]
    omega
  · split
    · rename_i h1 h2
      have harg : ring.tail + (ring.head - ring.tail) = ring.head := by omega
      rw [harg, Nat.mod_eq_of_lt hh]
    · rename_i h1 h2
      have harg : ring.tail + (ring.size - (ring.tail - ring.head))
          = ring.size + ring.head := by omega
      rw [harg, Nat.add_mod_left, Nat.mod_eq_of_lt hh]

theorem startPos_ne_head (ring : RingBuffer_t) (hs : 0 < ring.size)
    (hh : ring.head < ring.size) (ht : ring.tail < ring.size)
    (c : Nat) (hc : c < Peek ring) : startPos ring c ≠ ring.head := by
  have hpk : Peek ring < ring.size := Peek_lt ring hs hh ht
  have hb : c ≤ ring.size := by omega
  simp only [startPos]
  rw [addMod (n := ring.size) ring.tail c ht hb]
  simp only [Peek] at hc
  split
  all_goals
    revert hc
    split
    · omega
    · split <;> omega

theorem startPos_succ (ring : RingBuffer_t) (c : Nat) :
    (startPos ring c + 1) % ring.size = startPos ring (c + 1) := by
  simp only [startPos]
  rw [Nat.mod_add_mod]
  rfl

theorem map_getD_range (S : List Nat) :
    (List.range S.length).map (fun i => S.getD i 0) = S := by
  induction S with
  | nil => rfl
  | cons b T ih =>
      rw [List.length_cons, List.range_succ_eq_map, List.map_cons, List.map_map]
      have heq : ∀ i ∈ List.range T.length,
          ((fun i => (b :: T).getD i 0) ∘ (· + 1)) i = T.getD i 0 := by
        intro i _
        simp [List.getD]
      rw [List.map_congr_left heq, ih]
      rfl

theorem contents_length (ring : RingBuffer_t) :
    (contents ring).length = Peek ring := by
  simp [contents]

theorem contents_getD (ring : RingBuffer_t) (c : Nat) (hc : c < Peek ring) :
    (contents ring).getD c 0 = ring.data.getD (startPos ring c) 0 := by
  simp [contents, List.getD, List.getElem?_map, List.getElem?_range, hc]

theorem find?_cons_eq (p : Nat → Bool) (a : Nat) (l : List Nat) :
    (a :: l).find? p = if p a then some a else l.find? p := by
  cases h : p a <;> simp [List.find?, h]

theorem find?_congr_mem (p q : Nat → Bool) :
    ∀ l : List Nat, (∀ x ∈ l, p x = q x) → l.find? p = l.find? q := by
  intro l
  induction l with
  | nil => intro _; rfl
  | cons a t ih =>
      intro h
      rw [find?_cons_eq, find?_cons_eq, h a (by simp)]
      split
      · rfl
      · exact ih (fun x hx => h x (by simp [hx]))

theorem ite_min (a b : Nat) : (if a < b then a else b) = min a b := by
  rcases Nat.lt_or_ge a b with h | h
  · rw [if_pos h, Nat.min_eq_left (Nat.le_of_lt h)]
  · rw [if_neg (by omega), Nat.min_eq_right h]

theorem toSigned32_eq_self (z : Int) (h1 : -2147483648 ≤ z)
    (h2 : z < 2147483648) : toSigned32 z = z := by
  simp only [toSigned32]
  split <;> omega

theorem indexOfLoop_spec (ring : RingBuffer_t) (v : Nat)
    (hs : 0 < ring.size) (hh : ring.head < ring.size)
    (ht : ring.tail < ring.size) :
    ∀ fuel c, c ≤ Peek ring → Peek ring - c ≤ fuel →
      indexOfLoop ring v fuel (startPos ring c) c
        = (List.range' c (Peek ring - c)).find?
            (fun j => ring.data.getD (startPos ring j) 0 == v) := by
  intro fuel
  induction fuel with
  | zero =>
      intro c hc hf
      have h0 : Peek ring - c = 0 := by omega
      rw [h0]
      rfl
  | succ fuel ih =>
      intro c hc hf
      by_cases hceq : c = Peek ring
      · subst hceq
        have h0 : Peek ring - Peek ring = 0 := by omega
        rw [h0, startPos_peek ring hs hh ht]
        simp [indexOfLoop]
      · have hclt : c < Peek ring := by omega
        have hne : startPos ring c ≠ ring.head :=
          startPos_ne_head ring hs hh ht c hclt
        have hrange : Peek ring - c = (Peek ring - (c + 1)) + 1 := by omega
        rw [hrange, List.range'_succ, find?_cons_eq]
        show (if startPos ring c = ring.head then none
              else if ring.data.getD (startPos ring c) 0 = v then some c
              else indexOfLoop ring v fuel
                (if startPos ring c + 1 = ring.size then 0
                 else startPos ring c + 1) (c + 1)) = _
        rw [if_neg hne]
        by_cases hbyte : ring.data.getD (startPos ring c) 0 = v
        · rw [if_pos hbyte]
          have hb : (ring.data.getD (startPos ring c) 0 == v) = true :=
            beq_iff_eq.mpr hbyte
          rw [hb, if_pos rfl]
        · rw [if_neg hbyte]
          have hb : (ring.data.getD (startPos ring c) 0 == v) = false :=
            beq_eq_false_iff_ne.mpr hbyte
          rw [hb]
          rw [wrapStep ring.size (startPos ring c) (startPos_lt ring hs c),
              startPos_succ ring c]
          have := ih (c + 1) (by omega) (by omega)
          rw [this]
          simp

theorem RingBuffer_IndexOf_spec (ring : RingBuffer_t) (v : Nat)
    (hs : 0 < ring.size) (hh : ring.head < ring.size)
    (ht : ring.tail < ring.size) :
    RingBuffer_IndexOf ring v =
      match (List.range (Peek ring)).find?
          (fun j => ring.data.getD (startPos ring j) 0 == v) with
      | some c => (some c, .success)
      | none => (none, .error) := by
  have hpk : Peek ring < ring.size := Peek_lt ring hs hh ht
  have h0 : ring.tail = startPos ring 0 := by
    simp [startPos, Nat.mod_eq_of_lt ht]
  unfold RingBuffer_IndexOf
  rw [h0, indexOfLoop_spec ring v hs hh ht ring.size 0 (by omega) (by omega)]
  rw [show Peek ring - 0 = Peek ring from rfl, ← List.range_eq_range']

theorem findInnerLoop_spec (ring : RingBuffer_t) (P : List Nat) (pos : Nat) :
    ∀ k m, m + k = P.length →
      (findInnerLoop ring P pos k m = P.length ↔
        ∀ j, m ≤ j → j < P.length →
          ring.data.getD ((pos + j) % ring.size) 0 = P.getD j 0) := by
  intro k
  induction k with
  | zero =>
      intro m hm
      constructor
      · intro _ j hj1 hj2
        omega
      · intro _
        simpa [findInnerLoop] using hm
  | succ k ih =>
      intro m hm
      show (if ring.data.getD ((pos + m) % ring.size) 0 = P.getD m 0
            then findInnerLoop ring P pos k (m + 1) else m) = P.length ↔ _
      by_cases hb : ring.data.getD ((pos + m) % ring.size) 0 = P.getD m 0
      · rw [if_pos hb, ih (m + 1) (by omega)]
        constructor
        · intro hall j hj1 hj2
          rcases Nat.eq_or_lt_of_le hj1 with he | hl
          · rw [he] at hb
            exact hb
          · exact hall j hl hj2
        · intro hall j hj1 hj2
          exact hall j (by omega) hj2
      · rw [if_neg hb]
        constructor
        · intro hm2
          omega
        · intro hall
          exact absurd (hall m (Nat.le_refl m) (by omega)) hb

theorem findCond_iff (ring : RingBuffer_t) (P : List Nat) (pos : Nat)
    (hpos : pos < ring.size) (hP : P ≠ []) :
    ((ring.data.getD pos 0 = P.getD 0 0 ∧
      findInnerLoop ring P pos (P.length - 1) 1 = P.length)
     ↔ physMatch ring P pos = true) := by
  have hlen : 1 ≤ P.length := by
    cases P
    · simp at hP
    · simp
  rw [physMatch, List.all_eq_true,
      findInnerLoop_spec ring P pos (P.length - 1) 1 (by omega)]
  constructor
  · rintro ⟨h0, hrest⟩ m hm
    rw [List.mem_range] at hm
    rw [beq_iff_eq]
    match m with
    | 0 =>
        rw [show (pos + 0) % ring.size = pos by
          rw [Nat.add_zero, Nat.mod_eq_of_lt hpos]]
        exact h0
    | j + 1 => exact hrest (j + 1) (by omega) hm
  · intro hall
    constructor
    · have h0 := hall 0 (by rw [List.mem_range]; omega)
      rw [beq_iff_eq] at h0
      rwa [show (pos + 0) % ring.size = pos by
        rw [Nat.add_zero, Nat.mod_eq_of_lt hpos]] at h0
    · intro j hj1 hj2
      have hj := hall j (by rw [List.mem_range]; exact hj2)
      rwa [beq_iff_eq] at hj

theorem findLoop_spec (ring : RingBuffer_t) (P : List Nat)
    (hs : 0 < ring.size) (hh : ring.head < ring.size)
    (ht : ring.tail < ring.size) (hP : P ≠ []) :
    ∀ fuel c, c ≤ Peek ring → Peek ring - c ≤ fuel →
      findLoop ring P fuel (startPos ring c) c
        = (List.range' c (Peek ring - c)).find?
            (fun j => physMatch ring P (startPos ring j)) := by
  intro fuel
  induction fuel with
  | zero =>
      intro c hc hf
      have h0 : Peek ring - c = 0 := by omega
      rw [h0]
      rfl
  | succ fuel ih =>
      intro c hc hf
      by_cases hceq : c = Peek ring
      · subst hceq
        have h0 : Peek ring - Peek ring = 0 := by omega
        rw [h0, startPos_peek ring hs hh ht]
        simp [findLoop]
      · have hclt : c < Peek ring := by omega
        have hne : startPos ring c ≠ ring.head :=
          startPos_ne_head ring hs hh ht c hclt
        have hrange : Peek ring - c = (Peek ring - (c + 1)) + 1 := by omega
        rw [hrange, List.range'_succ, find?_cons_eq]
        show (if startPos ring c = ring.head then none
              else if ring.data.getD (startPos ring c) 0 = P.getD 0 0 ∧
                      findInnerLoop ring P (startPos ring c)
                        (P.length - 1) 1 = P.length
                   then some c
                   else findLoop ring P fuel
                     (if startPos ring c + 1 = ring.size then 0
                      else startPos ring c + 1) (c + 1)) = _
        rw [if_neg hne]
        by_cases hhit : physMatch ring P (startPos ring c) = true
        · rw [if_pos ((findCond_iff ring P (startPos ring c)
            (startPos_lt ring hs c) hP).mpr hhit), hhit, if_pos rfl]
        · rw [if_neg (fun hcond => hhit ((findCond_iff ring P (startPos ring c)
            (startPos_lt ring hs c) hP).mp hcond))]
          rw [Bool.not_eq_true] at hhit
          rw [hhit]
          rw [wrapStep ring.size (startPos ring c) (startPos_lt ring hs c),
              startPos_succ ring c]
          have := ih (c + 1) (by omega) (by omega)
          rw [this]
          simp

theorem RingBuffer_Find_spec (ring : RingBuffer_t) (P : List Nat)
    (hs : 0 < ring.size) (hh : ring.head < ring.size)
    (ht : ring.tail < ring.size) (hP : P ≠ []) :
    RingBuffer_Find ring P =
      match (List.range (Peek ring)).find?
          (fun j => physMatch ring P (startPos ring j)) with
      | some c => (some c, .success)
      | none => (none, .error) := by
  have hpk : Peek ring < ring.size := Peek_lt ring hs hh ht
  have h0 : ring.tail = startPos ring 0 := by
    simp [startPos, Nat.mod_eq_of_lt ht]
  unfold RingBuffer_Find
  rw [h0, findLoop_spec ring P hs hh ht hP ring.size 0 (by omega) (by omega)]
  rw [show Peek ring - 0 = Peek ring from rfl, ← List.range_eq_range']

/-! ## Claim theorems -/

/-- C1 (amended): starting from an empty ring buffer of capacity
`C = store.length` with both cursors at an arbitrary position `t < C`,
`RingBuffer_Put` of a sequence `S` with `1 ≤ |S| < C` returns `success`,
the occupancy becomes exactly `|S|` (no conflation of empty and full in
this range), and a subsequent `RingBuffer_Get` requesting `|S|` bytes
reads back exactly `S` with `bytesRead = |S|` and status `success` —
including writes that cross the physical wraparound boundary.  The claim
as stated fails at `|S| = C` (Put succeeds but leaves `head == tail`, so
the full buffer is conflated with an empty one and Get returns nothing)
and at `|S| = 0` (Put returns `invalidParam`, not `success`); see
`C1_roundtrip_counterexample`. -/
theorem C1_roundtrip_amended (t : Nat) (store S : List Nat)
    (ht : t < store.length) (h1 : 1 ≤ S.length)
    (h2 : S.length < store.length) :
    (RingBuffer_Put ⟨store, store.length, t, t⟩ S).2 = .success ∧
    Peek (RingBuffer_Put ⟨store, store.length, t, t⟩ S).1 = S.length ∧
    (RingBuffer_Get (RingBuffer_Put ⟨store, store.length, t, t⟩ S).1
      S.length).2.1 = S ∧
    (RingBuffer_Get (RingBuffer_Put ⟨store, store.length, t, t⟩ S).1
      S.length).2.2.1 = S.length ∧
    (RingBuffer_Get (RingBuffer_Put ⟨store, store.length, t, t⟩ S).1
      S.length).2.2.2 = .success := by
  have hs : 0 < (⟨store, store.length, t, t⟩ : RingBuffer_t).size := by
    show 0 < store.length
    omega
  have hh : (⟨store, store.length, t, t⟩ : RingBuffer_t).head
      < (⟨store, store.length, t, t⟩ : RingBuffer_t).size := ht
  have hP0 : Peek ⟨store, store.length, t, t⟩ = 0 := by simp [Peek]
  have hput : RingBuffer_Put ⟨store, store.length, t, t⟩ S
      = (putBytes ⟨store, store.length, t, t⟩ S, .success) := by
    unfold RingBuffer_Put
    rw [if_neg (by omega), hP0, if_neg (by show ¬ S.length > store.length - 0; omega)]
  obtain ⟨pf1, pf2, pf3, pf4⟩ :=
    putBytes_fields S ⟨store, store.length, t, t⟩ hs hh
  have hmod := addMod (n := store.length) t S.length ht (Nat.le_of_lt h2)
  have hPeek2 : Peek (putBytes ⟨store, store.length, t, t⟩ S) = S.length := by
    simp only [Peek, pf1, pf2, pf4]
    show (if (t + S.length) % store.length = t then 0
          else if (t + S.length) % store.length ≥ t
               then (t + S.length) % store.length - t
               else store.length - (t - (t + S.length) % store.length))
        = S.length
    rcases Nat.lt_or_ge (t + S.length) store.length with hlt | hge
    · rw [if_pos hlt] at hmod
      rw [hmod, if_neg (by omega), if_pos (by omega)]
      omega
    · rw [if_neg (by omega)] at hmod
      rw [hmod, if_neg (by omega), if_neg (by omega)]
      omega
  have hs2 : 0 < (putBytes ⟨store, store.length, t, t⟩ S).size := by
    rw [pf1]
    exact hs
  have ht2 : (putBytes ⟨store, store.length, t, t⟩ S).tail
      < (putBytes ⟨store, store.length, t, t⟩ S).size := by
    rw [pf1, pf2]
    exact ht
  obtain ⟨g1, _⟩ := getBytes_spec S.length
    (putBytes ⟨store, store.length, t, t⟩ S) hs2 ht2
  have hbytes : (getBytes (putBytes ⟨store, store.length, t, t⟩ S)
      S.length).2 = S := by
    rw [g1, pf2, pf1]
    show (List.range S.length).map
        (fun i => (putBytes ⟨store, store.length, t, t⟩ S).data.getD
          ((t + i) % store.length) 0) = S
    have hcongr : ∀ i ∈ List.range S.length,
        (putBytes ⟨store, store.length, t, t⟩ S).data.getD
          ((t + i) % store.length) 0 = S.getD i 0 := by
      intro i hi
      rw [List.mem_range] at hi
      exact putBytes_getD S ⟨store, store.length, t, t⟩ hs hh rfl
        (Nat.le_of_lt h2) i hi
    rw [List.map_congr_left hcongr, map_getD_range]
  have hget : RingBuffer_Get (putBytes ⟨store, store.length, t, t⟩ S) S.length
      = ((getBytes (putBytes ⟨store, store.length, t, t⟩ S) S.length).1,
         (getBytes (putBytes ⟨store, store.length, t, t⟩ S) S.length).2,
         S.length, .success) := by
    unfold RingBuffer_Get
    rw [if_neg (by omega), hPeek2]
    simp only [lt_self_iff_false, if_false]
  rw [hput]
  refine ⟨rfl, hPeek2, ?_, ?_, ?_⟩
  · show (RingBuffer_Get (putBytes ⟨store, store.length, t, t⟩ S)
      S.length).2.1 = S
    rw [hget]
    exact hbytes
  · show (RingBuffer_Get (putBytes ⟨store, store.length, t, t⟩ S)
      S.length).2.2.1 = S.length
    rw [hget]
  · show (RingBuffer_Get (putBytes ⟨store, store.length, t, t⟩ S)
      S.length).2.2.2 = .success
    rw [hget]

/-- C1 witness: capacity 3, cursors at 2, sequence `[5, 6]` — the write
crosses the wraparound boundary (positions 2 then 0) and reads back
exactly. -/
theorem C1_roundtrip_witness :
    (RingBuffer_Put ⟨[0, 0, 0], 3, 2, 2⟩ [5, 6]).2 = .success ∧
    Peek (RingBuffer_Put ⟨[0, 0, 0], 3, 2, 2⟩ [5, 6]).1 = 2 ∧
    (RingBuffer_Get (RingBuffer_Put ⟨[0, 0, 0], 3, 2, 2⟩ [5, 6]).1 2).2.1
      = [5, 6] ∧
    (RingBuffer_Get (RingBuffer_Put ⟨[0, 0, 0], 3, 2, 2⟩ [5, 6]).1 2).2.2.1
      = 2 ∧
    (RingBuffer_Get (RingBuffer_Put ⟨[0, 0, 0], 3, 2, 2⟩ [5, 6]).1 2).2.2.2
      = .success :=
  C1_roundtrip_amended 2 [0, 0, 0] [5, 6] (by decide) (by decide) (by decide)

/-- C1 counterexample: the claim as stated fails at `|S| = C`.  With
capacity 2 and `S = [7, 9]`, Put returns `success` but the resulting
state has `Peek = 0` — the full buffer is indistinguishable from the
empty one (`head == tail`), and Get of 2 bytes reads back `[]`, not `S`.
Also `|S| = 0 ≤ C` is rejected with `invalidParam`, not `success`. -/
theorem C1_roundtrip_counterexample :
    (RingBuffer_Put ⟨[0, 0], 2, 0, 0⟩ [7, 9]).2 = .success ∧
    Peek (RingBuffer_Put ⟨[0, 0], 2, 0, 0⟩ [7, 9]).1 = 0 ∧
    (RingBuffer_Put ⟨[0, 0], 2, 0, 0⟩ [7, 9]).1.head
      = (RingBuffer_Put ⟨[0, 0], 2, 0, 0⟩ [7, 9]).1.tail ∧
    (RingBuffer_Get (RingBuffer_Put ⟨[0, 0], 2, 0, 0⟩ [7, 9]).1 2).2.1 = [] ∧
    (RingBuffer_Put ⟨[0], 1, 0, 0⟩ []).2 = .invalidParam := by decide


/-- Characterization of one enabled controller tick: with both targets
nonzero and all raw values below 2^31 (so the `uint32` subtraction done
in C equals the mathematical difference), the handler commits exactly the
PID update of boost.c.  Shared support lemma for the claim theorems about
`BoostControllerPID`. -/
theorem PID_enabled_step (s : BoostState) (fV fI vr : Nat)
    (hv : s.targetVRaw ≠ 0) (hi : s.targetIRaw ≠ 0)
    (hbv : s.targetVRaw < 2147483648) (hbi : s.targetIRaw < 2147483648)
    (hfv : fV < 2147483648) (hfi : fI < 2147483648) :
    ADC1_IRQHandler s fV fI vr =
      { s with
        feedbackVRaw := fV, feedbackIRaw := fI, vref := vr,
        ccMode := if ((s.targetVRaw : Int) - fV) < ((s.targetIRaw : Int) - fI)
                  then false else true,
        lastEP := min ((s.targetVRaw : Int) - fV) ((s.targetIRaw : Int) - fI),
        eI := s.eI
          + min ((s.targetVRaw : Int) - fV) ((s.targetIRaw : Int) - fI),
        pwmDuty :=
          min (max
            (KP (min ((s.targetVRaw : Int) - fV) ((s.targetIRaw : Int) - fI))
             + KD (min ((s.targetVRaw : Int) - fV)
                    ((s.targetIRaw : Int) - fI) - s.lastEP)
             + KI (s.eI + min ((s.targetVRaw : Int) - fV)
                    ((s.targetIRaw : Int) - fI)))
            MIN_DUTY) MAX_DUTY } := by
  have hsv : toSigned32 ((s.targetVRaw : Int) - (fV : Int))
      = (s.targetVRaw : Int) - fV :=
    toSigned32_eq_self _ (by omega) (by omega)
  have hsi : toSigned32 ((s.targetIRaw : Int) - (fI : Int))
      = (s.targetIRaw : Int) - fI :=
    toSigned32_eq_self _ (by omega) (by omega)
  unfold ADC1_IRQHandler BoostControllerPID
  rw [if_neg (by
    show ¬ (s.targetVRaw = 0 ∨ s.targetIRaw = 0)
    omega)]
  simp only [hsv, hsi]

/-- C2: on every tick (any controller state, any ADC sample triple,
including adversarial saturated samples), the duty committed by
`BoostControllerPID` lies within `[MIN_DUTY, MAX_DUTY]`: the disabled
branch commits `0 = MIN_DUTY` and the enabled branch clamps the raw PID
sum with `max`/`min` — an out-of-range duty is clamped, never
rejected. -/
theorem C2_duty_clamped (s : BoostState) (fV fI vr : Nat) :
    MIN_DUTY ≤ (ADC1_IRQHandler s fV fI vr).pwmDuty ∧
    (ADC1_IRQHandler s fV fI vr).pwmDuty ≤ MAX_DUTY := by
  unfold ADC1_IRQHandler BoostControllerPID
  split
  · constructor
    · show MIN_DUTY ≤ (0 : Int)
      norm_num [MIN_DUTY]
    · show (0 : Int) ≤ MAX_DUTY
      norm_num [MAX_DUTY]
  · constructor
    · show MIN_DUTY ≤ min (max _ MIN_DUTY) MAX_DUTY
      exact le_min (le_max_right _ _) (by norm_num [MIN_DUTY, MAX_DUTY])
    · show min (max _ MIN_DUTY) MAX_DUTY ≤ MAX_DUTY
      exact min_le_right _ _

/-- C3: when either target is zero at the start of a tick, that tick
resets the PID memory (`lastEP` and `eI`) to zero and forces the duty to
`MIN_DUTY`, leaving the targets untouched — so no integral windup carries
over into the next enabled tick. -/
theorem C3_zero_target_reset (s : BoostState) (fV fI vr : Nat)
    (h : s.targetVRaw = 0 ∨ s.targetIRaw = 0) :
    (ADC1_IRQHandler s fV fI vr).lastEP = 0 ∧
    (ADC1_IRQHandler s fV fI vr).eI = 0 ∧
    (ADC1_IRQHandler s fV fI vr).pwmDuty = MIN_DUTY ∧
    (ADC1_IRQHandler s fV fI vr).targetVRaw = s.targetVRaw ∧
    (ADC1_IRQHandler s fV fI vr).targetIRaw = s.targetIRaw := by
  unfold ADC1_IRQHandler BoostControllerPID
  rw [if_pos (by exact h)]
  exact ⟨rfl, rfl, rfl, rfl, rfl⟩

/-- C3 witness: a disabled tick (voltage target 0) from a dirty state
resets the PID memory and duty. -/
theorem C3_zero_target_reset_witness :
    (ADC1_IRQHandler ⟨0, 5, 1, 1, 1, 0, 77, true, 9, 9⟩ 3 4 5).lastEP = 0 ∧
    (ADC1_IRQHandler ⟨0, 5, 1, 1, 1, 0, 77, true, 9, 9⟩ 3 4 5).eI = 0 ∧
    (ADC1_IRQHandler ⟨0, 5, 1, 1, 1, 0, 77, true, 9, 9⟩ 3 4 5).pwmDuty
      = MIN_DUTY ∧
    (ADC1_IRQHandler ⟨0, 5, 1, 1, 1, 0, 77, true, 9, 9⟩ 3 4 5).targetVRaw
      = (⟨0, 5, 1, 1, 1, 0, 77, true, 9, 9⟩ : BoostState).targetVRaw ∧
    (ADC1_IRQHandler ⟨0, 5, 1, 1, 1, 0, 77, true, 9, 9⟩ 3 4 5).targetIRaw
      = (⟨0, 5, 1, 1, 1, 0, 77, true, 9, 9⟩ : BoostState).targetIRaw :=
  C3_zero_target_reset ⟨0, 5, 1, 1, 1, 0, 77, true, 9, 9⟩ 3 4 5 (Or.inl rfl)

/-- C4: on an enabled tick (both targets nonzero, raw values in the
representable range), `ccMode` is set to true exactly when the current
error is less than or equal to the voltage error (`ccMode = (eV >= eI)`),
and every PID term — proportional, derivative, integral and the committed
duty — is computed from `e = min(eV, eI)`. -/
theorem C4_mode_arbitration (s : BoostState) (fV fI vr : Nat)
    (hv : s.targetVRaw ≠ 0) (hi : s.targetIRaw ≠ 0)
    (hbv : s.targetVRaw < 2147483648) (hbi : s.targetIRaw < 2147483648)
    (hfv : fV < 2147483648) (hfi : fI < 2147483648) :
    ((ADC1_IRQHandler s fV fI vr).ccMode = true ↔
      ((s.targetIRaw : Int) - fI) ≤ ((s.targetVRaw : Int) - fV)) ∧
    (ADC1_IRQHandler s fV fI vr).lastEP
      = min ((s.targetVRaw : Int) - fV) ((s.targetIRaw : Int) - fI) ∧
    (ADC1_IRQHandler s fV fI vr).eI
      = s.eI + min ((s.targetVRaw : Int) - fV) ((s.targetIRaw : Int) - fI) ∧
    (ADC1_IRQHandler s fV fI vr).pwmDuty
      = min (max
          (KP (min ((s.targetVRaw : Int) - fV) ((s.targetIRaw : Int) - fI))
           + KD (min ((s.targetVRaw : Int) - fV)
                  ((s.targetIRaw : Int) - fI) - s.lastEP)
           + KI (s.eI + min ((s.targetVRaw : Int) - fV)
                  ((s.targetIRaw : Int) - fI)))
          MIN_DUTY) MAX_DUTY := by
  rw [PID_enabled_step s fV fI vr hv hi hbv hbi hfv hfi]
  refine ⟨?_, rfl, rfl, rfl⟩
  show (if ((s.targetVRaw : Int) - fV) < ((s.targetIRaw : Int) - fI)
        then false else true) = true ↔ _
  split
  · rename_i hlt
    simp only [Bool.false_eq_true, false_iff]
    omega
  · rename_i hge
    simp only [true_iff]
    omega

/-- C4 witness: feedback pair on the CC side of the crossover
(`eV = 64 ≥ eI = 50`): ccMode true and all PID terms from `e = 50`. -/
theorem C4_mode_arbitration_witness :
    ((ADC1_IRQHandler ⟨100, 80, 0, 0, 512, 0, 0, false, 7, 128⟩
        36 30 512).ccMode = true ↔
      ((80 : Nat) : Int) - (30 : Nat) ≤ ((100 : Nat) : Int) - (36 : Nat)) ∧
    (ADC1_IRQHandler ⟨100, 80, 0, 0, 512, 0, 0, false, 7, 128⟩
        36 30 512).lastEP
      = min (((100 : Nat) : Int) - (36 : Nat)) (((80 : Nat) : Int) - (30 : Nat)) ∧
    (ADC1_IRQHandler ⟨100, 80, 0, 0, 512, 0, 0, false, 7, 128⟩
        36 30 512).eI
      = (⟨100, 80, 0, 0, 512, 0, 0, false, 7, 128⟩ : BoostState).eI
        + min (((100 : Nat) : Int) - (36 : Nat)) (((80 : Nat) : Int) - (30 : Nat)) ∧
    (ADC1_IRQHandler ⟨100, 80, 0, 0, 512, 0, 0, false, 7, 128⟩
        36 30 512).pwmDuty
      = min (max
          (KP (min (((100 : Nat) : Int) - (36 : Nat)) (((80 : Nat) : Int) - (30 : Nat)))
           + KD (min (((100 : Nat) : Int) - (36 : Nat))
                  (((80 : Nat) : Int) - (30 : Nat))
                - (⟨100, 80, 0, 0, 512, 0, 0, false, 7, 128⟩ : BoostState).lastEP)
           + KI ((⟨100, 80, 0, 0, 512, 0, 0, false, 7, 128⟩ : BoostState).eI
                + min (((100 : Nat) : Int) - (36 : Nat))
                    (((80 : Nat) : Int) - (30 : Nat))))
          MIN_DUTY) MAX_DUTY :=
  C4_mode_arbitration ⟨100, 80, 0, 0, 512, 0, 0, false, 7, 128⟩ 36 30 512
    (by decide) (by decide) (by decide) (by decide) (by decide) (by decide)

/-- C9 (amended): under constant feedback with both errors positive and
both targets nonzero, the duty committed by successive ticks never
decreases — provided the PID memory is already in the constant-error
regime (`lastEP` equals the common error `e = min(eV, eI)`), as holds
from the second tick of the regime onward.  Without that proviso the
claim is false: on the first tick of the regime the derivative term
`KD(e - lastError)` is positive and disappears on the next tick, which
can lower the duty; see `C9_monotone_counterexample`. -/
theorem C9_monotone_amended (s : BoostState) (fV fI vr : Nat)
    (hv : s.targetVRaw ≠ 0) (hi : s.targetIRaw ≠ 0)
    (hbv : s.targetVRaw < 2147483648) (hbi : s.targetIRaw < 2147483648)
    (hfv : fV < 2147483648) (hfi : fI < 2147483648)
    (hev : 0 < (s.targetVRaw : Int) - fV)
    (hei : 0 < (s.targetIRaw : Int) - fI)
    (hlast : s.lastEP
      = min ((s.targetVRaw : Int) - fV) ((s.targetIRaw : Int) - fI))
    (hin1 : MIN_DUTY < (ADC1_IRQHandler s fV fI vr).pwmDuty)
    (hin2 : (ADC1_IRQHandler s fV fI vr).pwmDuty < MAX_DUTY) :
    (ADC1_IRQHandler s fV fI vr).pwmDuty
      ≤ (ADC1_IRQHandler (ADC1_IRQHandler s fV fI vr) fV fI vr).pwmDuty := by
  have hstep1 := PID_enabled_step s fV fI vr hv hi hbv hbi hfv hfi
  set e : Int :=
    min ((s.targetVRaw : Int) - fV) ((s.targetIRaw : Int) - fI) with he
  have hepos : 0 < e := lt_min hev hei
  have hstep2 := PID_enabled_step (ADC1_IRQHandler s fV fI vr) fV fI vr
    (by rw [hstep1]; exact hv) (by rw [hstep1]; exact hi)
    (by rw [hstep1]; exact hbv) (by rw [hstep1]; exact hbi) hfv hfi
  rw [hstep1] at hstep2 ⊢
  rw [hstep2]
  dsimp only
  rw [hlast]
  have hKI : KI (s.eI + e) ≤ KI (s.eI + e + e) := by
    unfold KI
    exact Int.ediv_le_ediv (by norm_num) (by omega)
  refine min_le_min (max_le_max ?_ (le_refl _)) (le_refl _)
  unfold KP KD KI at *
  omega

/-- C9 counterexample: the claim as frozen is false.  Targets 100/100,
constant feedback 36/36 (both errors 64, positive), PID memory zeroed:
the first tick commits duty 73 (derivative term `64 >> 3 = 8` included),
the second commits 66 — a strict decrease, with every duty strictly
inside `(MIN_DUTY, MAX_DUTY)`. -/
theorem C9_monotone_counterexample :
    (0 : Int) < ((100 : Nat) : Int) - (36 : Nat) ∧
    (ADC1_IRQHandler ⟨100, 100, 0, 0, 512, 0, 0, false, 0, 0⟩
      36 36 512).pwmDuty = 73 ∧
    (ADC1_IRQHandler (ADC1_IRQHandler ⟨100, 100, 0, 0, 512, 0, 0, false, 0, 0⟩
      36 36 512) 36 36 512).pwmDuty = 66 ∧
    MIN_DUTY < (66 : Int) ∧ (73 : Int) < MAX_DUTY := by decide

/-- C9 witness: same regime but with `lastEP` already equal to the common
error 64: duty goes 65 then 66, nondecreasing. -/
theorem C9_monotone_witness :
    (ADC1_IRQHandler ⟨100, 100, 0, 0, 512, 0, 0, false, 64, 0⟩
        36 36 512).pwmDuty
      ≤ (ADC1_IRQHandler
          (ADC1_IRQHandler ⟨100, 100, 0, 0, 512, 0, 0, false, 64, 0⟩
            36 36 512) 36 36 512).pwmDuty :=
  C9_monotone_amended ⟨100, 100, 0, 0, 512, 0, 0, false, 64, 0⟩ 36 36 512
    (by decide) (by decide) (by decide) (by decide) (by decide) (by decide)
    (by decide) (by decide) (by decide) (by decide) (by decide)

/-- C10 (amended): the current reported by `GetCurrentMilliamps` (the
`current` field of `BoostPWM_GetState`) is 0 when
`feedbackCurrentRaw - currentOffset` is negative, and otherwise equals
that difference reduced mod 2^16 (the `uint16_t` return conversion) —
which is the difference itself exactly when it is below 2^16.  The claim
as frozen omits the 16-bit truncation; see
`C10_current_counterexample`. -/
theorem C10_current_amended (s : BoostState) :
    ((s.feedbackIRaw : Int) - s.currentOffset < 0 →
      (BoostPWM_GetState s).current = 0) ∧
    (0 ≤ (s.feedbackIRaw : Int) - s.currentOffset →
      ((BoostPWM_GetState s).current : Int)
        = ((s.feedbackIRaw : Int) - s.currentOffset) % 65536) ∧
    (0 ≤ (s.feedbackIRaw : Int) - s.currentOffset →
      (s.feedbackIRaw : Int) - s.currentOffset < 65536 →
      ((BoostPWM_GetState s).current : Int)
        = (s.feedbackIRaw : Int) - s.currentOffset) := by
  have hcur : (BoostPWM_GetState s).current
      = (if (s.feedbackIRaw : Int) - s.currentOffset < 0 then (0 : Nat)
         else (((s.feedbackIRaw : Int) - s.currentOffset) % 65536).toNat) := rfl
  refine ⟨?_, ?_, ?_⟩
  · intro h
    rw [hcur, if_pos h]
  · intro h
    rw [hcur, if_neg (by omega)]
    exact Int.toNat_of_nonneg (Int.emod_nonneg _ (by norm_num))
  · intro h1 h2
    rw [hcur, if_neg (by omega), Int.emod_eq_of_lt h1 h2]
    exact Int.toNat_of_nonneg h1

/-- C10 witness: sample 500, offset 100 — reported current is the plain
difference 400. -/
theorem C10_current_witness :
    (0 : Int) ≤ ((500 : Nat) : Int) - (100 : Int) ∧
    ((BoostPWM_GetState ⟨0, 0, 0, 500, 0, 100, 0, false, 0, 0⟩).current : Int)
      = ((500 : Nat) : Int) - (100 : Int) :=
  ⟨by decide,
   (C10_current_amended ⟨0, 0, 0, 500, 0, 100, 0, false, 0, 0⟩).2.2
     (by decide) (by decide)⟩

/-- C10 counterexample: the claim as frozen is false for extreme (but
type-representable) values: raw sample 65535 with calibration offset
-32768 gives difference 98303 ≥ 0, yet the `uint16_t` return wraps it to
32767. -/
theorem C10_current_counterexample :
    (BoostPWM_GetState ⟨0, 0, 0, 65535, 0, -32768, 0, false, 0, 0⟩).current
      = 32767 ∧
    (0 : Int) ≤ ((65535 : Nat) : Int) - (-32768 : Int) ∧
    ((65535 : Nat) : Int) - (-32768 : Int) = 98303 := by decide


/-- C5 (amended): `RingBuffer_IndexOf` and `RingBuffer_Find` scan start
offsets forward from `tail` in logical (oldest-to-newest) order over the
occupied region only, and return the zero-based logical offset of the
first hit (`find?` over `range (Peek ring)` is exactly the least
offset), or `NotFound` (`eRING_BUFFER_STATUS_ERROR`) when no start offset
before `head` hits; neither touches the buffer state (both are embedded
as pure functions — the C bodies never write to `ring`).  For `IndexOf` a
hit at offset `c` means the occupied byte `contents[c]` equals the value.
For `Find`, however, a hit means `physMatch`: the pattern bytes are
compared at physical positions `(start + m) % size` regardless of whether
those positions are occupied, so a match may extend past `head` into
unoccupied storage — the frozen claim ("succeeds only when every byte of
the pattern matches within the occupied bytes") is false; see
`C5_find_counterexample`. -/
theorem C5_search_amended (ring : RingBuffer_t) (v : Nat) (P : List Nat)
    (hs : 0 < ring.size) (hh : ring.head < ring.size)
    (ht : ring.tail < ring.size) (hP : P ≠ []) :
    (RingBuffer_IndexOf ring v =
      match (List.range (Peek ring)).find?
          (fun c => (contents ring).getD c 0 == v) with
      | some c => (some c, .success)
      | none => (none, .error)) ∧
    (RingBuffer_Find ring P =
      match (List.range (Peek ring)).find?
          (fun c => physMatch ring P (startPos ring c)) with
      | some c => (some c, .success)
      | none => (none, .error)) := by
  constructor
  · rw [RingBuffer_IndexOf_spec ring v hs hh ht]
    have hco : (List.range (Peek ring)).find?
          (fun c => (contents ring).getD c 0 == v)
        = (List.range (Peek ring)).find?
          (fun j => ring.data.getD (startPos ring j) 0 == v) := by
      apply find?_congr_mem
      intro x hx
      rw [List.mem_range] at hx
      rw [contents_getD ring x hx]
    rw [hco]
  · exact RingBuffer_Find_spec ring P hs hh ht hP

/-- C5 witness: buffer `[1, 2, 9, 9]` with `tail = 0`, `head = 2`
(occupied `[1, 2]`): IndexOf 2 hits at logical offset 1; Find `[2]` hits
at offset 1 as well. -/
theorem C5_search_witness :
    (RingBuffer_IndexOf ⟨[1, 2, 9, 9], 4, 2, 0⟩ 2 =
      match (List.range (Peek ⟨[1, 2, 9, 9], 4, 2, 0⟩)).find?
          (fun c => (contents ⟨[1, 2, 9, 9], 4, 2, 0⟩).getD c 0 == 2) with
      | some c => (some c, .success)
      | none => (none, .error)) ∧
    (RingBuffer_Find ⟨[1, 2, 9, 9], 4, 2, 0⟩ [2] =
      match (List.range (Peek ⟨[1, 2, 9, 9], 4, 2, 0⟩)).find?
          (fun c => physMatch ⟨[1, 2, 9, 9], 4, 2, 0⟩ [2]
            (startPos ⟨[1, 2, 9, 9], 4, 2, 0⟩ c)) with
      | some c => (some c, .success)
      | none => (none, .error)) :=
  C5_search_amended ⟨[1, 2, 9, 9], 4, 2, 0⟩ 2 [2]
    (by decide) (by decide) (by decide) (by decide)

/-- C5 counterexample: the frozen claim is false for `Find`.  Buffer
`[1, 2, 9, 9]` with `tail = 0`, `head = 2` holds only the 2 occupied
bytes `[1, 2]`, yet `Find` of the 3-byte pattern `[1, 2, 9]` succeeds at
offset 0: its inner match reads physical position 2, beyond `head`, in
the unoccupied region. -/
theorem C5_find_counterexample :
    RingBuffer_Find ⟨[1, 2, 9, 9], 4, 2, 0⟩ [1, 2, 9] = (some 0, .success) ∧
    Peek ⟨[1, 2, 9, 9], 4, 2, 0⟩ = 2 ∧
    ([1, 2, 9] : List Nat).length > Peek ⟨[1, 2, 9, 9], 4, 2, 0⟩ := by decide

/-- C6 (amended): every RingBuffer entry point returns `invalidParam`,
mutating nothing, when passed a null pointer or zero size/length — with
one exception the frozen claim gets wrong: `RingBuffer_Get` checks only
`ring`, `data` and `size`; it does NOT check the `bytesRead` out-pointer,
and with a null `bytesRead` (and otherwise valid arguments) it proceeds
and returns `success` (in C, dereferencing the null pointer); see
`C6_null_bytesRead_counterexample`. -/
theorem C6_invalid_param_amended :
    (∀ (rN dN : Bool) (storage : List Nat),
      rN = true ∨ dN = true ∨ storage.length = 0 →
        RingBuffer_Init_c rN dN storage = (none, .invalidParam)) ∧
    (∀ (r : Option RingBuffer_t) (d : Option (List Nat)),
      r = none ∨ d = none ∨ d = some [] →
        RingBuffer_Put_c r d = (r, .invalidParam)) ∧
    (∀ (r : Option RingBuffer_t) (dN : Bool) (sz : Nat) (bN : Bool),
      r = none ∨ dN = true ∨ sz = 0 →
        (RingBuffer_Get_c r dN sz bN).2.2.2 = .invalidParam ∧
        (RingBuffer_Get_c r dN sz bN).1 = r) ∧
    (∀ (r : RingBuffer_t) (sz : Nat) (bN : Bool), sz ≠ 0 →
      (RingBuffer_Get_c (some r) false sz bN).2.2.2 = .success) ∧
    (∀ (r : Option RingBuffer_t) (v : Nat) (iN : Bool),
      r = none ∨ iN = true →
        RingBuffer_IndexOf_c r v iN = (none, .invalidParam)) ∧
    (∀ (r : Option RingBuffer_t) (p : Option (List Nat)) (iN : Bool),
      r = none ∨ p = none ∨ p = some [] ∨ iN = true →
        RingBuffer_Find_c r p iN = (none, .invalidParam)) := by
  refine ⟨?_, ?_, ?_, ?_, ?_, ?_⟩
  · intro rN dN storage h
    unfold RingBuffer_Init_c
    rw [if_pos h]
  · intro r d h
    rcases r with _ | r
    · rfl
    · rcases d with _ | d
      · rfl
      · rcases h with h | h | h
        · exact absurd h (by simp)
        · exact absurd h (by simp)
        · have hd : d = [] := by injection h
          subst hd
          rfl
  · intro r dN sz bN h
    rcases r with _ | r
    · exact ⟨rfl, rfl⟩
    · have hcond : dN = true ∨ sz = 0 := by
        rcases h with h | h | h
        · exact absurd h (by simp)
        · exact Or.inl h
        · exact Or.inr h
      have hres : RingBuffer_Get_c (some r) dN sz bN
          = (some r, [], none, .invalidParam) := by
        simp only [RingBuffer_Get_c]
        rw [if_pos hcond]
      rw [hres]
      exact ⟨rfl, rfl⟩
  · intro r sz bN h
    simp only [RingBuffer_Get_c, RingBuffer_Get]
    rw [if_neg (by simp [h]), if_neg h]
  · intro r v iN h
    rcases r with _ | r
    · rfl
    · have hiN : iN = true := by
        rcases h with h | h
        · exact absurd h (by simp)
        · exact h
      subst hiN
      rfl
  · intro r p iN h
    rcases r with _ | r
    · rfl
    · rcases p with _ | p
      · rfl
      · have hcond : p.length = 0 ∨ iN = true := by
          rcases h with h | h | h | h
          · exact absurd h (by simp)
          · exact absurd h (by simp)
          · refine Or.inl ?_
            have hp : p = [] := by injection h
            subst hp
            rfl
          · exact Or.inr h
        show (if p.length = 0 ∨ iN = true then _ else _) = _
        rw [if_pos hcond]

/-- C6 witness: Get with a null ring pointer reports `invalidParam` and
leaves nothing mutated; Put with a zero-size argument likewise. -/
theorem C6_invalid_param_witness :
    ((RingBuffer_Get_c none false 1 false).2.2.2 = .invalidParam ∧
      (RingBuffer_Get_c none false 1 false).1 = none) ∧
    RingBuffer_Put_c (some ⟨[5], 1, 0, 0⟩) (some [])
      = (some ⟨[5], 1, 0, 0⟩, .invalidParam) :=
  ⟨C6_invalid_param_amended.2.2.1 none false 1 false (Or.inl rfl),
   C6_invalid_param_amended.2.1 (some ⟨[5], 1, 0, 0⟩) (some [])
     (Or.inr (Or.inr rfl))⟩

/-- C6 counterexample: the frozen claim is false for `RingBuffer_Get`
with a null `outBytesRead` pointer: with a valid ring, non-null data and
size 1, the guard does not test `bytesRead`, so the call proceeds and
returns `success` instead of `invalidParam` (the C code then dereferences
the null pointer when storing the count). -/
theorem C6_null_bytesRead_counterexample :
    (RingBuffer_Get_c (some ⟨[5], 1, 0, 0⟩) false 1 true).2.2.2
      = .success ∧
    (RingBuffer_Get_c (some ⟨[5], 1, 0, 0⟩) false 1 true).2.2.2
      ≠ .invalidParam := by decide

/-- C7: with non-null, nonzero arguments, `RingBuffer_Put` fails with
`Overflow` exactly when the requested length exceeds the free space
`size - Peek`, and a failed Put leaves the buffer state (hence `Peek`)
completely unchanged — all-or-nothing, never a partial write. -/
theorem C7_put_overflow (ring : RingBuffer_t) (data : List Nat)
    (h : data.length ≠ 0) :
    ((RingBuffer_Put ring data).2 = .overflow ↔
      data.length > ring.size - Peek ring) ∧
    ((RingBuffer_Put ring data).2 = .overflow →
      (RingBuffer_Put ring data).1 = ring ∧
      Peek (RingBuffer_Put ring data).1 = Peek ring) := by
  have hne : ¬ data.length = 0 := h
  by_cases hov : data.length > ring.size - Peek ring
  · have hres : RingBuffer_Put ring data = (ring, .overflow) := by
      simp only [RingBuffer_Put]
      rw [if_neg hne, if_pos hov]
    rw [hres]
    exact ⟨⟨fun _ => hov, fun _ => rfl⟩, fun _ => ⟨rfl, rfl⟩⟩
  · have hres : RingBuffer_Put ring data = (putBytes ring data, .success) := by
      simp only [RingBuffer_Put]
      rw [if_neg hne, if_neg hov]
    rw [hres]
    refine ⟨⟨fun hc => RingBufferStatus_e.noConfusion hc,
        fun hc => absurd hc hov⟩,
      fun hc => RingBufferStatus_e.noConfusion hc⟩

/-- C7 witness: capacity 3 with 2 occupied bytes (free 1): putting 2
bytes overflows and changes nothing. -/
theorem C7_put_overflow_witness :
    ((RingBuffer_Put ⟨[1, 2, 3], 3, 2, 0⟩ [7, 8]).2 = .overflow ↔
      ([7, 8] : List Nat).length > (3 : Nat) - Peek ⟨[1, 2, 3], 3, 2, 0⟩) ∧
    ((RingBuffer_Put ⟨[1, 2, 3], 3, 2, 0⟩ [7, 8]).2 = .overflow →
      (RingBuffer_Put ⟨[1, 2, 3], 3, 2, 0⟩ [7, 8]).1 = ⟨[1, 2, 3], 3, 2, 0⟩ ∧
      Peek (RingBuffer_Put ⟨[1, 2, 3], 3, 2, 0⟩ [7, 8]).1
        = Peek ⟨[1, 2, 3], 3, 2, 0⟩) :=
  C7_put_overflow ⟨[1, 2, 3], 3, 2, 0⟩ [7, 8] (by decide)

/-- C8: `RingBuffer_Get` with valid arguments reads exactly
`min(requested, occupied)` bytes, reports that exact count through
`bytesRead`, and returns `success` — even when zero bytes are available;
a short read is signalled only through the count, never as an error. -/
theorem C8_get_short_read (ring : RingBuffer_t) (size : Nat)
    (h : size ≠ 0) :
    (RingBuffer_Get ring size).2.2.2 = .success ∧
    (RingBuffer_Get ring size).2.2.1 = min size (Peek ring) ∧
    (RingBuffer_Get ring size).2.1.length = min size (Peek ring) := by
  have hres : RingBuffer_Get ring size
      = ((getBytes ring (if size < Peek ring then size else Peek ring)).1,
         (getBytes ring (if size < Peek ring then size else Peek ring)).2,
         (if size < Peek ring then size else Peek ring), .success) := by
    simp only [RingBuffer_Get]
    rw [if_neg h]
  rw [hres]
  refine ⟨rfl, ite_min size (Peek ring), ?_⟩
  rw [getBytes_length]
  exact ite_min size (Peek ring)

/-- C8 witness: requesting 5 bytes from a buffer holding 2 returns
`success` with a short read of `min 5 2 = 2` bytes; requesting 1 byte
from an empty buffer returns `success` with 0 bytes. -/
theorem C8_get_short_read_witness :
    ((RingBuffer_Get ⟨[1, 2, 3], 3, 2, 0⟩ 5).2.2.2 = .success ∧
      (RingBuffer_Get ⟨[1, 2, 3], 3, 2, 0⟩ 5).2.2.1
        = min 5 (Peek ⟨[1, 2, 3], 3, 2, 0⟩) ∧
      (RingBuffer_Get ⟨[1, 2, 3], 3, 2, 0⟩ 5).2.1.length
        = min 5 (Peek ⟨[1, 2, 3], 3, 2, 0⟩)) ∧
    ((RingBuffer_Get ⟨[1, 2, 3], 3, 1, 1⟩ 1).2.2.2 = .success ∧
      (RingBuffer_Get ⟨[1, 2, 3], 3, 1, 1⟩ 1).2.2.1
        = min 1 (Peek ⟨[1, 2, 3], 3, 1, 1⟩) ∧
      (RingBuffer_Get ⟨[1, 2, 3], 3, 1, 1⟩ 1).2.1.length
        = min 1 (Peek ⟨[1, 2, 3], 3, 1, 1⟩)) :=
  ⟨C8_get_short_read ⟨[1, 2, 3], 3, 2, 0⟩ 5 (by decide),
   C8_get_short_read ⟨[1, 2, 3], 3, 1, 1⟩ 1 (by decide)⟩


end CCCCPPPS
